import Mathlib

/-!
Shallow embedding of `src/montecarlo.py` (class `MonteCarlo`): a Metropolis
Monte Carlo simulator for a 2-D Ising-type spin lattice.

Modelling choices:
* Spins, coupling, field, Boltzmann constant and temperature are rationals
  (the Python code applies exact arithmetic on ints / floats; the claims under
  study are algebraic identities and control-flow properties, captured over ℚ).
* The IEEE-754 special values that the acceptance decider can produce
  (`np.exp(-E/(k_B*T))` with a zero denominator) are modelled by the type
  `Flt` with explicit `inf` / `neginf` / `nan` constructors and the numpy
  semantics of true division by zero (no fault: `0/0 = nan`, `±x/0 = ±inf`)
  and of IEEE comparison against `nan` (always false).
* The exponential on finite arguments is transcendental, so it is a parameter
  `e : ℚ → ℚ` of every function that reaches it; the special values follow
  IEEE exactly (`exp nan = nan`, `exp (-inf) = 0`, `exp inf = inf`).
* The global numpy random generator (`np.random.ranf()`) is an explicit
  stream `stream : ℕ → ℚ` together with a cursor `k : ℕ` counting the draws
  consumed so far; drawing one sample reads `stream k` and advances to `k+1`.
* The in-place mutation of `self.lattice` (and of `self.T` in
  `magnetization_Ns`) is explicit state passing: each method returns the
  updated `MonteCarlo` record.
* Python exceptions are an `Option String` / `Except String` result carrying
  the message; the two raise sites of the source keep their identity
  (`InvalidBoundaryCondition` for the `sweep` raise, `InvalidSweepCount` for
  the `magnetization_Ns` raise).
-/

set_option linter.unusedVariables false

namespace IsingMC

/-- IEEE-754-style value domain for the acceptance decider: a finite rational,
the two infinities, or NaN. -/
inductive Flt where
  | finite (q : ℚ)
  | inf
  | neginf
  | nan
deriving DecidableEq

/-- Numpy true division `a / b` of two finite values: division by zero raises
no fault and yields `nan` (for `0/0`) or a signed infinity. -/
def ieeeDiv (a b : ℚ) : Flt :=
  if b ≠ 0 then .finite (a / b)
  else if a = 0 then .nan
  else if 0 < a then .inf
  else .neginf

/-- IEEE exponential on the `Flt` domain; on finite arguments the
transcendental `exp` is abstracted by the parameter `e`. -/
def ieeeExp (e : ℚ → ℚ) : Flt → Flt
  | .finite q => .finite (e q)
  | .inf => .inf
  | .neginf => .finite 0
  | .nan => .nan

/-- IEEE comparison `u <= x` of a finite `u` against an `Flt` value: any
comparison against `nan` is false. -/
def ieeeLe (u : ℚ) : Flt → Bool
  | .finite q => decide (u ≤ q)
  | .inf => true
  | .neginf => false
  | .nan => false

/-- The constructor parameter `J`: a scalar, or an array broadcast against the
4 neighbor values (`self.J * neighbor_spin` in `E_flip`). -/
inductive Coupling where
  | scalar (j : ℚ)
  | vec (js : List ℚ)
deriving DecidableEq

/-- Numpy product `self.J * neighbor_spin`: scalar broadcast or elementwise. -/
def Coupling.mul : Coupling → List ℚ → List ℚ
  | .scalar j, ns => ns.map (fun x => j * x)
  | .vec js, ns => List.zipWith (fun a b => a * b) js ns

/-- The `MonteCarlo` instance state: the lattice (held row-major as a list of
rows), the shape captured at construction (`self.dimen = lattice.shape`), and
the physical parameters `J`, `epsilon`, `k_B`, `T` of `__init__`. -/
structure MonteCarlo where
  lattice : List (List ℚ)
  dimen : ℕ × ℕ
  J : Coupling
  epsilon : ℚ
  k_B : ℚ
  T : ℚ
deriving DecidableEq

/-- Constructor `MonteCarlo.__init__`: stores the lattice and records its
shape in `dimen`. -/
def MonteCarlo.init (lattice : List (List ℚ)) (J : Coupling) (epsilon k_B T : ℚ) :
    MonteCarlo :=
  { lattice := lattice
    dimen := (lattice.length, (lattice.headD []).length)
    J := J
    epsilon := epsilon
    k_B := k_B
    T := T }

/-- Read `lattice[i, j]` (0 outside the stored grid; the sweeps only index in
range). -/
def getS (lat : List (List ℚ)) (i j : ℕ) : ℚ :=
  (lat.getD i []).getD j 0

/-- Write `lattice[i, j] = v` (no-op outside the stored grid). -/
def setS (lat : List (List ℚ)) (i j : ℕ) (v : ℚ) : List (List ℚ) :=
  lat.set i ((lat.getD i []).set j v)

/-- Python indexing into an axis of length `len`: a negative index counts from
the end (`lattice[i, -1]` is the last column). Only `-1` arises in `sweep`. -/
def pyIdx (len : ℕ) (k : ℤ) : ℕ :=
  if k < 0 then (k + len).toNat else k.toNat

/-- Method `summary`: the number of positive spins, the number of negative
spins, and the total spin of the lattice (numpy `(lattice > 0).sum()`,
`(lattice < 0).sum()`, `lattice.sum()`). Read-only: it returns no updated
state and mutates nothing. -/
def MonteCarlo.summary (mc : MonteCarlo) : ℕ × ℕ × ℚ :=
  ((mc.lattice.map (fun row => row.countP (fun x => decide (0 < x)))).sum,
   (mc.lattice.map (fun row => row.countP (fun x => decide (x < 0)))).sum,
   (mc.lattice.map List.sum).sum)

/-- Total number of lattice sites (`self.lattice.size`). -/
def numCells (lat : List (List ℚ)) : ℕ :=
  (lat.map List.length).sum

/-- Total spin of the lattice (`self.lattice.sum()`), the third component of
`summary`. -/
def totalSpin (lat : List (List ℚ)) : ℚ :=
  (lat.map List.sum).sum

/-- Method `E_flip`: returns
`-2 * (site_spin * (self.J * neighbor_spin).sum() + self.epsilon * site_spin)`.
The `coord` argument is accepted and ignored, exactly as in the source. -/
def MonteCarlo.E_flip (mc : MonteCarlo) (coord : ℕ × ℕ) (site_spin : ℚ)
    (neighbor_spin : List ℚ) : ℚ :=
  -2 * (site_spin * (Coupling.mul mc.J neighbor_spin).sum +
        mc.epsilon * site_spin)

/-- Method `flip_decider`: `if E_flip < 0: return True`, else draw one sample
`u = np.random.ranf()` and `return True` iff `u <= np.exp(-E_flip /
(self.k_B * self.T))`, else `return False`. Returns the decision together
with the advanced random cursor. -/
def MonteCarlo.flip_decider (e : ℚ → ℚ) (mc : MonteCarlo) (Ef : ℚ)
    (stream : ℕ → ℚ) (k : ℕ) : Bool × ℕ :=
  if Ef < 0 then (true, k)
  else if ieeeLe (stream k) (ieeeExp e (ieeeDiv (-Ef) (mc.k_B * mc.T))) then
    (true, k + 1)
  else (false, k + 1)

/-- Open-boundary neighbor spins (left, right, up, down) of site `(i, j)` in
`sweep`: a missing neighbor beyond the boundary contributes spin 0. -/
def neighborsOBC (lat : List (List ℚ)) (rows cols i j : ℕ) : List ℚ :=
  [if j = 0 then 0 else getS lat i (j - 1),
   if j = cols - 1 then 0 else getS lat i (j + 1),
   if i = 0 then 0 else getS lat (i - 1) j,
   if i = rows - 1 then 0 else getS lat (i + 1) j]

/-- The four index pairs `(row, col)` read by the periodic-boundary branch of
`sweep` for site `(i, j)`, in order left, right, up, down: left and up use
Python index `-1` (wrap to the end), right and down wrap explicitly to 0. -/
def neighborsPBCIdx (rows cols i j : ℕ) : List (ℕ × ℕ) :=
  [(i, pyIdx cols ((j : ℤ) - 1)),
   (i, if j = cols - 1 then 0 else j + 1),
   (pyIdx rows ((i : ℤ) - 1), j),
   (if i = rows - 1 then 0 else i + 1, j)]

/-- Periodic-boundary neighbor spins of site `(i, j)` in `sweep`: the lattice
values at the four wrapped index pairs. -/
def neighborsPBC (lat : List (List ℚ)) (rows cols i j : ℕ) : List ℚ :=
  (neighborsPBCIdx rows cols i j).map (fun p => getS lat p.1 p.2)

/-- The row-major site order of `sweep`: `(0,0), (0,1), …` (outer loop over
rows, inner loop over columns). -/
def rowMajor (rows cols : ℕ) : List (ℕ × ℕ) :=
  ((List.range rows).map (fun i => (List.range cols).map (fun j => (i, j)))).flatten

/-- The body shared by the two loops of `sweep`, iterated over the listed
sites: read `spin_ij`, build the neighbor list with `nb`, compute the flip
energy via `E_flip`, consult `flip_decider`, and on acceptance multiply the
cell by `-1` in place. -/
def sweepSites (e : ℚ → ℚ) (mc : MonteCarlo)
    (nb : List (List ℚ) → ℕ → ℕ → List ℚ) (stream : ℕ → ℚ) :
    List (ℕ × ℕ) → List (List ℚ) → ℕ → List (List ℚ) × ℕ
  | [], lat, k => (lat, k)
  | (i, j) :: rest, lat, k =>
    let spin_ij := getS lat i j
    let d := MonteCarlo.flip_decider e mc
      (MonteCarlo.E_flip mc (i, j) spin_ij (nb lat i j)) stream k
    sweepSites e mc nb stream rest
      (if d.1 then setS lat i j (getS lat i j * -1) else lat) d.2

/-- Method `sweep`: validates the boundary selector `BC` once, then performs
one full row-major pass over every site, deriving neighbors per the selected
policy and flipping accepted sites in place. An unrecognized selector raises
(`Option String` message) with the lattice and random cursor untouched. -/
def MonteCarlo.sweep (e : ℚ → ℚ) (mc : MonteCarlo) (BC : String)
    (stream : ℕ → ℚ) (k : ℕ) : MonteCarlo × ℕ × Option String :=
  if BC = "OBC" then
    let r := sweepSites e mc (fun lat i j => neighborsOBC lat mc.dimen.1 mc.dimen.2 i j)
      stream (rowMajor mc.dimen.1 mc.dimen.2) mc.lattice k
    ({ mc with lattice := r.1 }, r.2, none)
  else if BC = "PBC" then
    let r := sweepSites e mc (fun lat i j => neighborsPBC lat mc.dimen.1 mc.dimen.2 i j)
      stream (rowMajor mc.dimen.1 mc.dimen.2) mc.lattice k
    ({ mc with lattice := r.1 }, r.2, none)
  else (mc, k, some "BC can get values of OBC or PBC.")

/-- The loop of `magnetization_Ns`: perform the remaining sweeps, adding the
post-sweep total spin (`self.summary()[2]`) to the accumulator `M`; a raise
inside `sweep` propagates. -/
def magLoop (e : ℚ → ℚ) (BC : String) (stream : ℕ → ℚ) :
    ℕ → MonteCarlo → ℕ → ℚ → MonteCarlo × ℕ × Except String ℚ
  | 0, mc, k, M => (mc, k, .ok M)
  | m + 1, mc, k, M =>
    match MonteCarlo.sweep e mc BC stream k with
    | (mc', k', none) => magLoop e BC stream m mc' k' (M + totalSpin mc'.lattice)
    | (mc', k', some msg) => (mc', k', .error msg)

/-- Method `magnetization_Ns`: sets `self.T = T` first, then raises
`InvalidSweepCount` if `n < 1`; otherwise performs `n` sweeps, accumulating
the total spin after each, and returns `M / n`. -/
def MonteCarlo.magnetization_Ns (e : ℚ → ℚ) (mc : MonteCarlo) (T : ℚ) (n : ℤ)
    (BC : String) (stream : ℕ → ℚ) (k : ℕ) :
    MonteCarlo × ℕ × Except String ℚ :=
  let mc1 := { mc with T := T }
  if n < 1 then
    (mc1, k, .error "n should be a positive integer larger than 0.")
  else
    match magLoop e BC stream n.toNat mc1 k 0 with
    | (mc2, k2, .ok M) => (mc2, k2, .ok (M / (n : ℚ)))
    | (mc2, k2, .error msg) => (mc2, k2, .error msg)

/-! ### Concrete instances used by witnesses and counterexamples -/

/-- A 4×4 lattice with every spin `+1`. -/
def lat44 : List (List ℚ) :=
  [[1, 1, 1, 1], [1, 1, 1, 1], [1, 1, 1, 1], [1, 1, 1, 1]]

/-- The end-to-end T = 0 scenario: 4×4 all `+1` lattice, coupling 1
(positive), zero field, Boltzmann constant 1, temperature 0. -/
def mcT0 : MonteCarlo := MonteCarlo.init lat44 (.scalar 1) 0 1 0

/-- A 1×1 lattice instance with temperature 1, used to instantiate theorems
with hypotheses at a concrete input. -/
def mcW : MonteCarlo := MonteCarlo.init [[1]] (.scalar 1) 0 1 1

/-- A concrete stand-in for the abstract exponential on finite arguments. -/
def constOne : ℚ → ℚ := fun _ => 1

/-- A concrete random stream: every draw is `1/2`. -/
def halfStream : ℕ → ℚ := fun _ => 1 / 2

/-- The 15 sites that follow `(0, 0)` in the row-major order of a 4×4 sweep. -/
def rest44 : List (ℕ × ℕ) :=
  [(0, 1), (0, 2), (0, 3),
   (1, 0), (1, 1), (1, 2), (1, 3),
   (2, 0), (2, 1), (2, 2), (2, 3),
   (3, 0), (3, 1), (3, 2), (3, 3)]

/-- `ShapePM lat lat'` says `lat'` has the same shape as `lat` (same number of
rows and same length of every row) and every cell of `lat'` is the
corresponding cell of `lat` up to sign. -/
def ShapePM (lat lat' : List (List ℚ)) : Prop :=
  lat'.length = lat.length ∧
  (∀ r, (lat'.getD r []).length = (lat.getD r []).length) ∧
  (∀ i j, getS lat' i j = getS lat i j ∨ getS lat' i j = -getS lat i j)

/-! Spec-side refinement definitions for the aggregator (claim C5): these two
definitions follow the words of the spec's single-temperature contract
(perform `n` full sweeps in sequence; accumulate the total spin after every
sweep), to be compared with the embedded `magnetization_Ns`. -/

/-- Performing `m` full sweeps in sequence, as the spec words it. -/
def sweepN (e : ℚ → ℚ) (BC : String) (stream : ℕ → ℚ) :
    ℕ → MonteCarlo → ℕ → MonteCarlo × ℕ
  | 0, mc, k => (mc, k)
  | m + 1, mc, k =>
    let r := MonteCarlo.sweep e mc BC stream k
    sweepN e BC stream m r.1 r.2.1

/-- The list of post-sweep lattice totals over `m` sweeps, as the spec words
it. -/
def sweepTotals (e : ℚ → ℚ) (BC : String) (stream : ℕ → ℚ) :
    ℕ → MonteCarlo → ℕ → List ℚ
  | 0, _, _ => []
  | m + 1, mc, k =>
    let r := MonteCarlo.sweep e mc BC stream k
    totalSpin r.1.lattice :: sweepTotals e BC stream m r.1 r.2.1

/-! ### Helper lemmas about list reads and writes -/

/-- Writing position `n` does not change a read at a different position. -/
lemma getD_set_ne {α : Type} (l : List α) (n m : ℕ) (a d : α) (h : n ≠ m) :
    (l.set n a).getD m d = l.getD m d := by
  induction l generalizing n m with
  | nil => simp
  | cons x xs ih =>
    cases n with
    | zero =>
      cases m with
      | zero => exact absurd rfl h
      | succ m => simp
    | succ n =>
      cases m with
      | zero => simp
      | succ m => simpa using ih n m (by omega)

/-- Reading back the written position: the new value in range, unchanged out
of range. -/
lemma getD_set_eq {α : Type} (l : List α) (n : ℕ) (a d : α) :
    (l.set n a).getD n d = if n < l.length then a else l.getD n d := by
  induction l generalizing n with
  | nil => simp
  | cons x xs ih =>
    cases n with
    | zero => simp
    | succ n => simpa using ih n

/-- `setS` at one site does not change `getS` at any other site. -/
lemma getS_setS_ne (lat : List (List ℚ)) (i j i' j' : ℕ) (v : ℚ)
    (h : (i, j) ≠ (i', j')) :
    getS (setS lat i j v) i' j' = getS lat i' j' := by
  unfold getS setS
  by_cases hi : i = i'
  · subst hi
    have hj : j ≠ j' := fun hj => h (by rw [hj])
    rw [getD_set_eq]
    by_cases hlen : i < lat.length
    · simp only [hlen, if_true]
      exact getD_set_ne _ _ _ _ _ hj
    · simp [hlen]
  · rw [getD_set_ne _ _ _ _ _ hi]

/-- `setS` preserves the number of rows. -/
lemma length_setS (lat : List (List ℚ)) (i j : ℕ) (v : ℚ) :
    (setS lat i j v).length = lat.length := by
  simp [setS]

/-- `setS` preserves the length of every row. -/
lemma rowlen_setS (lat : List (List ℚ)) (i j : ℕ) (v : ℚ) (r : ℕ) :
    ((setS lat i j v).getD r []).length = (lat.getD r []).length := by
  unfold setS
  by_cases hi : i = r
  · subst hi
    rw [getD_set_eq]
    by_cases hlen : i < lat.length
    · simp [hlen]
    · simp [hlen]
  · rw [getD_set_ne _ _ _ _ _ hi]

/-- Processing a list of sites that avoids `(i, j)` leaves the spin at
`(i, j)` unchanged. -/
lemma sweepSites_getS_notin (e : ℚ → ℚ) (mc : MonteCarlo)
    (nb : List (List ℚ) → ℕ → ℕ → List ℚ) (stream : ℕ → ℚ)
    (coords : List (ℕ × ℕ)) (i j : ℕ) (h : (i, j) ∉ coords) :
    ∀ (lat : List (List ℚ)) (k : ℕ),
      getS (sweepSites e mc nb stream coords lat k).1 i j = getS lat i j := by
  induction coords with
  | nil => intro lat k; rfl
  | cons p rest ih =>
    intro lat k
    obtain ⟨pi, pj⟩ := p
    have hne : (pi, pj) ≠ (i, j) := fun hp => h (hp ▸ List.mem_cons_self _ _)
    have hrest : (i, j) ∉ rest := fun hr => h (List.mem_cons_of_mem _ hr)
    show getS (sweepSites e mc nb stream rest _ _).1 i j = getS lat i j
    rw [ih hrest]
    by_cases hd : (MonteCarlo.flip_decider e mc
        (MonteCarlo.E_flip mc (pi, pj) (getS lat pi pj) (nb lat pi pj)) stream k).1
    · simp only [hd, if_true]
      exact getS_setS_ne _ _ _ _ _ _ hne
    · simp [hd]

/-! ### The shape-and-magnitude invariant of sweeping -/

lemma shapePM_rfl (lat : List (List ℚ)) : ShapePM lat lat :=
  ⟨rfl, fun _ => rfl, fun _ _ => Or.inl rfl⟩

lemma shapePM_trans {a b c : List (List ℚ)} (h1 : ShapePM a b) (h2 : ShapePM b c) :
    ShapePM a c := by
  refine ⟨h2.1.trans h1.1, fun r => (h2.2.1 r).trans (h1.2.1 r), fun i j => ?_⟩
  rcases h2.2.2 i j with h | h <;> rcases h1.2.2 i j with h' | h' <;>
    simp [h, h']

/-- One in-place sign flip is a `ShapePM` step. -/
lemma shapePM_flip (lat : List (List ℚ)) (i j : ℕ) :
    ShapePM lat (setS lat i j (getS lat i j * -1)) := by
  refine ⟨length_setS _ _ _ _, rowlen_setS _ _ _ _, fun i' j' => ?_⟩
  by_cases h : (i, j) = (i', j')
  · have hi : i = i' := congrArg Prod.fst h
    have hj : j = j' := congrArg Prod.snd h
    subst hi; subst hj
    unfold getS setS
    rw [getD_set_eq]
    by_cases hlen : i < lat.length
    · rw [if_pos hlen, getD_set_eq]
      by_cases hrow : j < (lat.getD i []).length
      · rw [if_pos hrow]
        right; rw [mul_neg_one]
      · rw [if_neg hrow]
        left; rfl
    · rw [if_neg hlen]
      left; rfl
  · left; exact getS_setS_ne _ _ _ _ _ _ h

/-- The sweep loop only performs in-place sign flips: its result is `ShapePM`
the input lattice. -/
lemma sweepSites_shapePM (e : ℚ → ℚ) (mc : MonteCarlo)
    (nb : List (List ℚ) → ℕ → ℕ → List ℚ) (stream : ℕ → ℚ) :
    ∀ (coords : List (ℕ × ℕ)) (lat : List (List ℚ)) (k : ℕ),
      ShapePM lat (sweepSites e mc nb stream coords lat k).1 := by
  intro coords
  induction coords with
  | nil => intro lat k; exact shapePM_rfl lat
  | cons p rest ih =>
    intro lat k
    obtain ⟨pi, pj⟩ := p
    refine shapePM_trans ?_ (ih _ _)
    by_cases hd : (MonteCarlo.flip_decider e mc
        (MonteCarlo.E_flip mc (pi, pj) (getS lat pi pj) (nb lat pi pj)) stream k).1
    · simp only [hd, if_true]
      exact shapePM_flip lat pi pj
    · simp only [hd, if_false]
      exact shapePM_rfl lat

/-- One `sweep` call is a `ShapePM` step on the lattice and keeps `dimen`. -/
lemma sweep_shapePM (e : ℚ → ℚ) (mc : MonteCarlo) (BC : String)
    (stream : ℕ → ℚ) (k : ℕ) :
    ShapePM mc.lattice (MonteCarlo.sweep e mc BC stream k).1.lattice ∧
      (MonteCarlo.sweep e mc BC stream k).1.dimen = mc.dimen := by
  unfold MonteCarlo.sweep
  by_cases h1 : BC = "OBC"
  · rw [if_pos h1]
    exact ⟨sweepSites_shapePM _ _ _ _ _ _ _, rfl⟩
  · rw [if_neg h1]
    by_cases h2 : BC = "PBC"
    · rw [if_pos h2]
      exact ⟨sweepSites_shapePM _ _ _ _ _ _ _, rfl⟩
    · rw [if_neg h2]
      exact ⟨shapePM_rfl _, rfl⟩

/-- The `magnetization_Ns` loop is a chain of `ShapePM` steps. -/
lemma magLoop_shapePM (e : ℚ → ℚ) (BC : String) (stream : ℕ → ℚ) :
    ∀ (m : ℕ) (mc : MonteCarlo) (k : ℕ) (M : ℚ),
      ShapePM mc.lattice (magLoop e BC stream m mc k M).1.lattice ∧
        (magLoop e BC stream m mc k M).1.dimen = mc.dimen := by
  intro m
  induction m with
  | zero => intro mc k M; exact ⟨shapePM_rfl _, rfl⟩
  | succ m ih =>
    intro mc k M
    have hs := sweep_shapePM e mc BC stream k
    rcases hsw : MonteCarlo.sweep e mc BC stream k with ⟨mc', k', err⟩
    rw [hsw] at hs
    have hsp : ShapePM mc.lattice mc'.lattice := hs.1
    have hsd : mc'.dimen = mc.dimen := hs.2
    cases err with
    | none =>
      have hml : magLoop e BC stream (m + 1) mc k M =
          magLoop e BC stream m mc' k' (M + totalSpin mc'.lattice) := by
        rw [magLoop, hsw]
      obtain ⟨ih1, ih2⟩ := ih mc' k' (M + totalSpin mc'.lattice)
      rw [hml]
      exact ⟨shapePM_trans hsp ih1, ih2.trans hsd⟩
    | some msg =>
      have hml : magLoop e BC stream (m + 1) mc k M = (mc', k', .error msg) := by
        rw [magLoop, hsw]
      rw [hml]
      exact ⟨hsp, hsd⟩

/-! ### The aggregator refines the spec's sweep sequence -/

/-- A recognized boundary selector never raises in `sweep`. -/
lemma sweep_valid_no_error (e : ℚ → ℚ) (mc : MonteCarlo) (BC : String)
    (stream : ℕ → ℚ) (k : ℕ) (h : BC = "OBC" ∨ BC = "PBC") :
    MonteCarlo.sweep e mc BC stream k =
      ((MonteCarlo.sweep e mc BC stream k).1,
       (MonteCarlo.sweep e mc BC stream k).2.1, none) := by
  rcases h with h | h <;> subst h <;> simp [MonteCarlo.sweep]

/-- Under a recognized selector, the `magnetization_Ns` loop is the spec's
sweep sequence together with the running sum of post-sweep totals. -/
lemma magLoop_eq_sweepN (e : ℚ → ℚ) (BC : String) (stream : ℕ → ℚ)
    (h : BC = "OBC" ∨ BC = "PBC") :
    ∀ (m : ℕ) (mc : MonteCarlo) (k : ℕ) (M : ℚ),
      magLoop e BC stream m mc k M =
        ((sweepN e BC stream m mc k).1, (sweepN e BC stream m mc k).2,
         .ok (M + (sweepTotals e BC stream m mc k).sum)) := by
  intro m
  induction m with
  | zero => intro mc k M; simp [magLoop, sweepN, sweepTotals]
  | succ m ih =>
    intro mc k M
    have hs := sweep_valid_no_error e mc BC stream k h
    have hml : magLoop e BC stream (m + 1) mc k M =
        magLoop e BC stream m (MonteCarlo.sweep e mc BC stream k).1
          (MonteCarlo.sweep e mc BC stream k).2.1
          (M + totalSpin (MonteCarlo.sweep e mc BC stream k).1.lattice) := by
      conv_lhs => rw [magLoop, hs]
    rw [hml, ih]
    simp only [sweepN, sweepTotals, List.sum_cons]
    rw [add_assoc]

/-! ### The T = 0 aligned-lattice scenario (claim C3) -/

/-- One step of the sweep loop, spelled out. -/
lemma sweepSites_cons (e : ℚ → ℚ) (mc : MonteCarlo)
    (nb : List (List ℚ) → ℕ → ℕ → List ℚ) (stream : ℕ → ℚ)
    (pi pj : ℕ) (rest : List (ℕ × ℕ)) (lat : List (List ℚ)) (k : ℕ) :
    sweepSites e mc nb stream ((pi, pj) :: rest) lat k =
      sweepSites e mc nb stream rest
        (if (MonteCarlo.flip_decider e mc
              (MonteCarlo.E_flip mc (pi, pj) (getS lat pi pj) (nb lat pi pj))
              stream k).1
         then setS lat pi pj (getS lat pi pj * -1) else lat)
        (MonteCarlo.flip_decider e mc
          (MonteCarlo.E_flip mc (pi, pj) (getS lat pi pj) (nb lat pi pj))
          stream k).2 :=
  rfl

/-- If the very first site `(0, 0)` of a sweep is accepted without consuming
a draw, and no later site is `(0, 0)` again, the final spin at `(0, 0)` is
the flipped initial one. -/
lemma sweepSites_first00 (e : ℚ → ℚ) (mc : MonteCarlo)
    (nb : List (List ℚ) → ℕ → ℕ → List ℚ) (stream : ℕ → ℚ)
    (lat : List (List ℚ)) (k : ℕ) (rest : List (ℕ × ℕ))
    (hnotin : ((0 : ℕ), (0 : ℕ)) ∉ rest)
    (hflip : MonteCarlo.flip_decider e mc
      (MonteCarlo.E_flip mc (0, 0) (getS lat 0 0) (nb lat 0 0)) stream k
        = (true, k)) :
    getS (sweepSites e mc nb stream (((0, 0) : ℕ × ℕ) :: rest) lat k).1 0 0 =
      getS (setS lat 0 0 (getS lat 0 0 * -1)) 0 0 := by
  rw [sweepSites_cons, hflip]
  simp only [if_true]
  exact sweepSites_getS_notin _ _ _ _ _ _ _ hnotin _ _

/-- For the 4×4 all `+1` lattice with any positive scalar coupling `j`, zero
field and temperature 0, the first site `(0, 0)` of either sweep has strictly
negative flip energy (`-8j` under PBC, `-4j` under OBC), is accepted on the
deterministic branch without a random draw, and is flipped to `-1`; no later
site of the same sweep writes `(0, 0)` again. -/
lemma sweep_aligned_T0_site00 (j kB : ℚ) (hj : 0 < j) (e : ℚ → ℚ)
    (stream : ℕ → ℚ) (k : ℕ) (BC : String) (hBC : BC = "OBC" ∨ BC = "PBC") :
    getS (MonteCarlo.sweep e (MonteCarlo.init lat44 (.scalar j) 0 kB 0)
      BC stream k).1.lattice 0 0 = -1 := by
  have hrm : rowMajor 4 4 = ((0, 0) : ℕ × ℕ) :: rest44 := by decide
  have hset : getS (setS lat44 0 0 (getS lat44 0 0 * -1)) 0 0 = -1 := by
    norm_num [setS, getS, lat44]
  have hdim : (MonteCarlo.init lat44 (.scalar j) 0 kB 0).dimen = ((4 : ℕ), (4 : ℕ)) :=
    rfl
  rcases hBC with h | h <;> subst h
  · have hnb : neighborsOBC lat44 4 4 0 0 = [0, 1, 0, 1] := by
      norm_num [neighborsOBC, getS, lat44]
    have hE : MonteCarlo.E_flip (MonteCarlo.init lat44 (.scalar j) 0 kB 0) (0, 0)
        (getS lat44 0 0) [0, 1, 0, 1] = -4 * j := by
      norm_num [MonteCarlo.E_flip, Coupling.mul, getS, lat44, MonteCarlo.init]
      ring
    have hflip : MonteCarlo.flip_decider e (MonteCarlo.init lat44 (.scalar j) 0 kB 0)
        (MonteCarlo.E_flip (MonteCarlo.init lat44 (.scalar j) 0 kB 0) (0, 0)
          (getS lat44 0 0) (neighborsOBC lat44 4 4 0 0)) stream k = (true, k) := by
      rw [hnb, hE]
      unfold MonteCarlo.flip_decider
      rw [if_pos (by nlinarith)]
    unfold MonteCarlo.sweep
    rw [if_pos rfl, hdim]
    dsimp only
    rw [hrm]
    have step := sweepSites_first00 e (MonteCarlo.init lat44 (.scalar j) 0 kB 0)
      (fun lat i j' => neighborsOBC lat 4 4 i j') stream lat44 k rest44
      (by decide) hflip
    exact step.trans hset
  · have h3 : ((3 : ℤ)).toNat = 3 := rfl
    have hnb : neighborsPBC lat44 4 4 0 0 = [1, 1, 1, 1] := by
      norm_num [neighborsPBC, neighborsPBCIdx, pyIdx, getS, lat44, h3]
    have hE : MonteCarlo.E_flip (MonteCarlo.init lat44 (.scalar j) 0 kB 0) (0, 0)
        (getS lat44 0 0) [1, 1, 1, 1] = -8 * j := by
      norm_num [MonteCarlo.E_flip, Coupling.mul, getS, lat44, MonteCarlo.init]
      ring
    have hflip : MonteCarlo.flip_decider e (MonteCarlo.init lat44 (.scalar j) 0 kB 0)
        (MonteCarlo.E_flip (MonteCarlo.init lat44 (.scalar j) 0 kB 0) (0, 0)
          (getS lat44 0 0) (neighborsPBC lat44 4 4 0 0)) stream k = (true, k) := by
      rw [hnb, hE]
      unfold MonteCarlo.flip_decider
      rw [if_pos (by nlinarith)]
    unfold MonteCarlo.sweep
    rw [if_neg (by decide), if_pos rfl, hdim]
    dsimp only
    rw [hrm]
    have step := sweepSites_first00 e (MonteCarlo.init lat44 (.scalar j) 0 kB 0)
      (fun lat i j' => neighborsPBC lat 4 4 i j') stream lat44 k rest44
      (by decide) hflip
    exact step.trans hset

/-- The spec's totals list has exactly one entry per sweep. -/
lemma sweepTotals_length (e : ℚ → ℚ) (BC : String) (stream : ℕ → ℚ) :
    ∀ (m : ℕ) (mc : MonteCarlo) (k : ℕ),
      (sweepTotals e BC stream m mc k).length = m := by
  intro m
  induction m with
  | zero => intro mc k; rfl
  | succ m ih => intro mc k; simp [sweepTotals, ih]

/-! ### Counting helpers for `summary` (claim C8) -/

/-- On a row whose cells are all `m` or `-m` with `m > 0`, the positive and
negative counts partition the row and determine its sum. -/
lemma row_counts (m : ℚ) (hm : 0 < m) :
    ∀ (row : List ℚ), (∀ x ∈ row, x = m ∨ x = -m) →
      row.countP (fun x => decide (0 < x)) + row.countP (fun x => decide (x < 0))
          = row.length ∧
      row.sum = ((row.countP (fun x => decide (0 < x)) : ℚ) -
                 (row.countP (fun x => decide (x < 0)) : ℚ)) * m := by
  intro row
  induction row with
  | nil => intro _; simp
  | cons x xs ih =>
    intro hmem
    obtain ⟨ih1, ih2⟩ := ih (fun y hy => hmem y (List.mem_cons_of_mem _ hy))
    rcases hmem x (List.mem_cons_self _ _) with hx | hx
    · have hx0 : (decide (0 < x)) = true := by rw [hx]; simpa using hm
      have hx1 : (decide (x < 0)) = false := by
        rw [hx]
        simp only [decide_eq_false_iff_not]
        exact not_lt.mpr (le_of_lt hm)
      refine ⟨?_, ?_⟩
      · simp only [List.countP_cons, hx0, hx1, List.length_cons, if_true]
        simp only [Bool.false_eq_true, if_false]
        omega
      · simp only [List.countP_cons, hx0, hx1, List.sum_cons, if_true]
        simp only [Bool.false_eq_true, if_false]
        rw [hx, ih2]
        push_cast
        ring
    · have hx0 : (decide (0 < x)) = false := by
        rw [hx]
        simp only [decide_eq_false_iff_not]
        exact not_lt.mpr (le_of_lt (neg_neg_of_pos hm))
      have hx1 : (decide (x < 0)) = true := by
        rw [hx]; simpa using neg_neg_of_pos hm
      refine ⟨?_, ?_⟩
      · simp only [List.countP_cons, hx0, hx1, List.length_cons, if_true]
        simp only [Bool.false_eq_true, if_false]
        omega
      · simp only [List.countP_cons, hx0, hx1, List.sum_cons, if_true]
        simp only [Bool.false_eq_true, if_false]
        rw [hx, ih2]
        push_cast
        ring

/-- Lattice-level version of `row_counts`, matching the three components of
`summary`. -/
lemma lattice_counts (m : ℚ) (hm : 0 < m) :
    ∀ (lat : List (List ℚ)), (∀ row ∈ lat, ∀ x ∈ row, x = m ∨ x = -m) →
      (lat.map (fun row => row.countP (fun x => decide (0 < x)))).sum +
        (lat.map (fun row => row.countP (fun x => decide (x < 0)))).sum
          = numCells lat ∧
      (lat.map List.sum).sum =
        ((((lat.map (fun row => row.countP (fun x => decide (0 < x)))).sum : ℕ) : ℚ) -
         (((lat.map (fun row => row.countP (fun x => decide (x < 0)))).sum : ℕ) : ℚ)) * m := by
  intro lat
  induction lat with
  | nil => intro _; simp [numCells]
  | cons row rows ih =>
    intro hmem
    obtain ⟨ih1, ih2⟩ := ih (fun r hr => hmem r (List.mem_cons_of_mem _ hr))
    obtain ⟨h1, h2⟩ := row_counts m hm row (hmem row (List.mem_cons_self _ _))
    refine ⟨?_, ?_⟩
    · simp only [List.map_cons, List.sum_cons, numCells] at ih1 ⊢
      omega
    · simp only [List.map_cons, List.sum_cons]
      rw [h2, ih2]
      push_cast
      ring

/-! ### Index facts for the periodic boundary (claim C6) -/

/-- Python index `j - 1` into an axis of length `len` stays in bounds. -/
lemma pyIdx_sub_one_lt (len j : ℕ) (hlen : 0 < len) (hj : j < len) :
    pyIdx len ((j : ℤ) - 1) < len := by
  unfold pyIdx
  split_ifs <;> omega

/-- Python index `-1` (column or row 0 minus one) wraps to the last index. -/
lemma pyIdx_zero_sub_one (len : ℕ) (hlen : 0 < len) :
    pyIdx len (((0 : ℕ) : ℤ) - 1) = len - 1 := by
  unfold pyIdx
  rw [if_pos (by omega)]
  omega

/-! ### The claims -/

/-- Claim C1: for every site spin `s`, every 4-vector of neighbor spins,
every scalar (or 4-element) coupling and scalar field, `E_flip` returns
exactly `-2 * (J-weighted sum over neighbors of s * neighbor + eps * s)`;
equality is exact for all inputs, including neighbor entries equal to 0. -/
theorem E_flip_exact_formula (lat : List (List ℚ)) (dim : ℕ × ℕ)
    (eps kb T : ℚ) (coord : ℕ × ℕ) (s a b c d : ℚ) :
    (∀ j : ℚ,
      MonteCarlo.E_flip ⟨lat, dim, .scalar j, eps, kb, T⟩ coord s [a, b, c, d] =
        -2 * ((j * (s * a) + j * (s * b) + j * (s * c) + j * (s * d)) + eps * s)) ∧
    (∀ ja jb jc jd : ℚ,
      MonteCarlo.E_flip ⟨lat, dim, .vec [ja, jb, jc, jd], eps, kb, T⟩ coord s
        [a, b, c, d] =
        -2 * ((ja * (s * a) + jb * (s * b) + jc * (s * c) + jd * (s * d)) + eps * s)) := by
  constructor <;> intros <;> (simp [MonteCarlo.E_flip, Coupling.mul]; ring)

/-- Claim C2: `flip_decider` returns true whenever the flip energy is
negative without consuming a random draw, and otherwise draws exactly one
uniform sample `u = stream k` and returns true iff
`u <= exp(-E / (k_B * T))` (computed in IEEE semantics). -/
theorem flip_decider_metropolis (e : ℚ → ℚ) (mc : MonteCarlo) (Ef : ℚ)
    (stream : ℕ → ℚ) (k : ℕ) :
    (Ef < 0 → MonteCarlo.flip_decider e mc Ef stream k = (true, k)) ∧
    (0 ≤ Ef → MonteCarlo.flip_decider e mc Ef stream k =
      (ieeeLe (stream k) (ieeeExp e (ieeeDiv (-Ef) (mc.k_B * mc.T))), k + 1)) := by
  constructor
  · intro h
    unfold MonteCarlo.flip_decider
    rw [if_pos h]
  · intro h
    unfold MonteCarlo.flip_decider
    rw [if_neg (not_lt.mpr h)]
    cases hb : ieeeLe (stream k) (ieeeExp e (ieeeDiv (-Ef) (mc.k_B * mc.T))) <;>
      simp [hb]

/-- Witness for C2 at concrete inputs: an energy-lowering move is accepted
with the random cursor untouched, and a positive-energy move at `T = 1`
consumes one draw and compares `1/2 <= exp(-1)` (modelled value 1). -/
theorem flip_decider_metropolis_witness :
    (MonteCarlo.flip_decider constOne mcW (-1) halfStream 0 = (true, 0)) ∧
    (MonteCarlo.flip_decider constOne mcW 1 halfStream 0 =
      (ieeeLe (halfStream 0) (ieeeExp constOne (ieeeDiv (-1) (mcW.k_B * mcW.T))),
       0 + 1)) :=
  ⟨(flip_decider_metropolis constOne mcW (-1) halfStream 0).1 (by norm_num),
   (flip_decider_metropolis constOne mcW 1 halfStream 0).2 (by norm_num)⟩

/-- Claim C7: when `T = 0` and `E_flip = 0`, the decider computes
`exp(-0/0)`, i.e. `exp` of NaN, the IEEE comparison `u <= NaN` is false for
every drawn `u`, and the decider returns false after consuming the one
draw; the division by zero raises no fault (it yields NaN). -/
theorem flip_decider_T0_E0_nan_rejects (e : ℚ → ℚ) (mc : MonteCarlo)
    (stream : ℕ → ℚ) (k : ℕ) (hT : mc.T = 0) :
    ieeeDiv (-(0 : ℚ)) (mc.k_B * mc.T) = .nan ∧
    ieeeExp e .nan = .nan ∧
    (∀ u : ℚ, ieeeLe u .nan = false) ∧
    MonteCarlo.flip_decider e mc 0 stream k = (false, k + 1) := by
  have hden : mc.k_B * mc.T = 0 := by rw [hT, mul_zero]
  have h1 : ieeeDiv (-(0 : ℚ)) (mc.k_B * mc.T) = .nan := by
    rw [hden]
    unfold ieeeDiv
    norm_num
  refine ⟨h1, rfl, fun u => rfl, ?_⟩
  unfold MonteCarlo.flip_decider
  rw [if_neg (by norm_num), h1]
  simp [ieeeExp, ieeeLe]

/-- Witness for C7 at the concrete T = 0 instance `mcT0`: the zero-energy
flip is rejected and exactly one draw is consumed. -/
theorem flip_decider_T0_E0_nan_rejects_witness :
    mcT0.T = 0 ∧
    MonteCarlo.flip_decider constOne mcT0 0 halfStream 0 = (false, 0 + 1) :=
  ⟨rfl, (flip_decider_T0_E0_nan_rejects constOne mcT0 halfStream 0 rfl).2.2.2⟩

/-- Claim C4: for every boundary selector other than `OBC` and `PBC`,
`sweep` raises the `InvalidBoundaryCondition` failure, every lattice cell is
left unchanged, and no random draw is consumed (the selector is validated
once per call, before any site is processed). -/
theorem sweep_invalid_BC (e : ℚ → ℚ) (mc : MonteCarlo) (BC : String)
    (stream : ℕ → ℚ) (k : ℕ) (h1 : BC ≠ "OBC") (h2 : BC ≠ "PBC") :
    MonteCarlo.sweep e mc BC stream k =
      (mc, k, some "BC can get values of OBC or PBC.") ∧
    (MonteCarlo.sweep e mc BC stream k).1.lattice = mc.lattice ∧
    (MonteCarlo.sweep e mc BC stream k).2.1 = k := by
  unfold MonteCarlo.sweep
  rw [if_neg h1, if_neg h2]
  exact ⟨rfl, rfl, rfl⟩

/-- Witness for C4 at the concrete selector `ABC`. -/
theorem sweep_invalid_BC_witness :
    MonteCarlo.sweep constOne mcW "ABC" halfStream 0 =
      (mcW, 0, some "BC can get values of OBC or PBC.") ∧
    (MonteCarlo.sweep constOne mcW "ABC" halfStream 0).1.lattice = mcW.lattice ∧
    (MonteCarlo.sweep constOne mcW "ABC" halfStream 0).2.1 = 0 :=
  sweep_invalid_BC constOne mcW "ABC" halfStream 0 (by decide) (by decide)

/-- Claim C10: `magnetization_Ns` assigns the instance temperature before
validating the sweep count, so the `InvalidSweepCount` failure for `n < 1`
is raised from a state in which the temperature has already been set to `T`
while the lattice is unchanged. -/
theorem magnetization_Ns_sets_T_before_validation (e : ℚ → ℚ)
    (mc : MonteCarlo) (T : ℚ) (n : ℤ) (BC : String) (stream : ℕ → ℚ) (k : ℕ)
    (hn : n < 1) :
    MonteCarlo.magnetization_Ns e mc T n BC stream k =
      ({ mc with T := T }, k,
       .error "n should be a positive integer larger than 0.") ∧
    ({ mc with T := T } : MonteCarlo).T = T ∧
    ({ mc with T := T } : MonteCarlo).lattice = mc.lattice := by
  unfold MonteCarlo.magnetization_Ns
  rw [if_pos hn]
  exact ⟨rfl, rfl, rfl⟩

/-- Witness for C10 at `n = 0`: the error state carries the new temperature
`5` and the original lattice. -/
theorem magnetization_Ns_sets_T_before_validation_witness :
    MonteCarlo.magnetization_Ns constOne mcW 5 0 "PBC" halfStream 0 =
      ({ mcW with T := 5 }, 0,
       .error "n should be a positive integer larger than 0.") ∧
    ({ mcW with T := 5 } : MonteCarlo).T = 5 ∧
    ({ mcW with T := 5 } : MonteCarlo).lattice = mcW.lattice :=
  magnetization_Ns_sets_T_before_validation constOne mcW 5 0 "PBC" halfStream 0
    (by norm_num)

/-- Claim C5: for `n < 1` the aggregator raises `InvalidSweepCount` and
performs no sweep (no lattice change, no draw consumed); for `n >= 1` under
a recognized boundary selector it performs exactly `n` sweeps (the spec's
`sweepN` sequence, with one accumulated total per sweep) and returns the
arithmetic mean of the `n` post-sweep total spins. -/
theorem magnetization_Ns_contract (e : ℚ → ℚ) (mc : MonteCarlo) (T : ℚ)
    (n : ℤ) (BC : String) (stream : ℕ → ℚ) (k : ℕ) :
    (n < 1 → MonteCarlo.magnetization_Ns e mc T n BC stream k =
      ({ mc with T := T }, k,
       .error "n should be a positive integer larger than 0.")) ∧
    (1 ≤ n → (BC = "OBC" ∨ BC = "PBC") →
      MonteCarlo.magnetization_Ns e mc T n BC stream k =
        ((sweepN e BC stream n.toNat { mc with T := T } k).1,
         (sweepN e BC stream n.toNat { mc with T := T } k).2,
         .ok ((sweepTotals e BC stream n.toNat { mc with T := T } k).sum / (n : ℚ))) ∧
      (sweepTotals e BC stream n.toNat { mc with T := T } k).length = n.toNat) := by
  constructor
  · intro hn
    unfold MonteCarlo.magnetization_Ns
    rw [if_pos hn]
  · intro hn hBC
    refine ⟨?_, sweepTotals_length e BC stream n.toNat _ k⟩
    unfold MonteCarlo.magnetization_Ns
    rw [if_neg (not_lt.mpr hn),
      magLoop_eq_sweepN e BC stream hBC n.toNat { mc with T := T } k 0, zero_add]

/-- Witness for C5: `n = 0` raises with no sweep performed, and `n = 1`
under `PBC` returns the mean of one post-sweep total. -/
theorem magnetization_Ns_contract_witness :
    (MonteCarlo.magnetization_Ns constOne mcW 2 0 "PBC" halfStream 0 =
      ({ mcW with T := 2 }, 0,
       .error "n should be a positive integer larger than 0.")) ∧
    (MonteCarlo.magnetization_Ns constOne mcW 2 1 "PBC" halfStream 0 =
      ((sweepN constOne "PBC" halfStream (1 : ℤ).toNat { mcW with T := 2 } 0).1,
       (sweepN constOne "PBC" halfStream (1 : ℤ).toNat { mcW with T := 2 } 0).2,
       .ok ((sweepTotals constOne "PBC" halfStream (1 : ℤ).toNat
              { mcW with T := 2 } 0).sum / ((1 : ℤ) : ℚ))) ∧
     (sweepTotals constOne "PBC" halfStream (1 : ℤ).toNat
        { mcW with T := 2 } 0).length = (1 : ℤ).toNat) :=
  ⟨(magnetization_Ns_contract constOne mcW 2 0 "PBC" halfStream 0).1 (by norm_num),
   (magnetization_Ns_contract constOne mcW 2 1 "PBC" halfStream 0).2 (by norm_num)
     (Or.inr rfl)⟩

/-- Counterexample to claim C3 as stated: on the 4×4 all `+1` lattice with
zero field, positive coupling 1 and temperature 0, one `sweep` call under
either recognized policy changes cell `(0, 0)` from `1` to `-1`, so the
lattice does not stay unchanged. (Under the code's energy convention
`E_flip = -2 * (J * Σ s * s_nb + eps * s)`, the aligned site has flip energy
`-8` under PBC and `-4` under OBC, both strictly negative, so the move is
accepted unconditionally.) -/
theorem sweep_T0_aligned_flips_counterexample :
    getS mcT0.lattice 0 0 = 1 ∧
    getS (MonteCarlo.sweep constOne mcT0 "OBC" halfStream 0).1.lattice 0 0 = -1 ∧
    getS (MonteCarlo.sweep constOne mcT0 "PBC" halfStream 0).1.lattice 0 0 = -1 :=
  ⟨by norm_num [mcT0, MonteCarlo.init, getS, lat44],
   sweep_aligned_T0_site00 1 1 (by norm_num) constOne halfStream 0 "OBC" (Or.inl rfl),
   sweep_aligned_T0_site00 1 1 (by norm_num) constOne halfStream 0 "PBC" (Or.inr rfl)⟩

/-- Claim C3 (amended): for the 4×4 lattice with every spin `+1`, zero
field, positive scalar coupling, and temperature 0, one call to `sweep`
(under either recognized boundary policy) flips at least one spin: the spin
at site `(0, 0)` ends at `-1` regardless of the random draws, because its
flip energy is strictly negative under the code's energy convention. -/
theorem sweep_T0_aligned_flips_site00 (j kB : ℚ) (hj : 0 < j) (e : ℚ → ℚ)
    (stream : ℕ → ℚ) (k : ℕ) (BC : String) (hBC : BC = "OBC" ∨ BC = "PBC") :
    getS (MonteCarlo.sweep e (MonteCarlo.init lat44 (.scalar j) 0 kB 0)
      BC stream k).1.lattice 0 0 = -1 ∧
    getS lat44 0 0 = 1 :=
  ⟨sweep_aligned_T0_site00 j kB hj e stream k BC hBC,
   by norm_num [getS, lat44]⟩

/-- Witness for the amended C3 at coupling 1, Boltzmann constant 1, under
`OBC`. -/
theorem sweep_T0_aligned_flips_site00_witness :
    getS (MonteCarlo.sweep constOne (MonteCarlo.init lat44 (.scalar 1) 0 1 0)
      "OBC" halfStream 0).1.lattice 0 0 = -1 ∧
    getS lat44 0 0 = 1 :=
  sweep_T0_aligned_flips_site00 1 1 (by norm_num) constOne halfStream 0 "OBC"
    (Or.inl rfl)

/-- Claim C6: under the periodic policy, the neighbor set used by `sweep`
wraps around: the left neighbor of column 0 is the last column of the same
row, the up neighbor of row 0 is the last row of the same column, the right
neighbor of the last column is column 0, the down neighbor of the last row
is row 0, and every index pair read stays inside the grid bounds. -/
theorem pbc_neighbors_wrap (lat : List (List ℚ)) (rows cols i j : ℕ)
    (hr : 0 < rows) (hc : 0 < cols) (hi : i < rows) (hj : j < cols) :
    (j = 0 → (neighborsPBC lat rows cols i j).getD 0 0 = getS lat i (cols - 1)) ∧
    (i = 0 → (neighborsPBC lat rows cols i j).getD 2 0 = getS lat (rows - 1) j) ∧
    (j = cols - 1 → (neighborsPBC lat rows cols i j).getD 1 0 = getS lat i 0) ∧
    (i = rows - 1 → (neighborsPBC lat rows cols i j).getD 3 0 = getS lat 0 j) ∧
    (∀ p ∈ neighborsPBCIdx rows cols i j, p.1 < rows ∧ p.2 < cols) := by
  refine ⟨?_, ?_, ?_, ?_, ?_⟩
  · intro h
    subst h
    simp only [neighborsPBC, neighborsPBCIdx, List.map_cons, List.getD_cons_zero]
    rw [pyIdx_zero_sub_one cols hc]
  · intro h
    subst h
    simp only [neighborsPBC, neighborsPBCIdx, List.map_cons, List.getD_cons_succ,
      List.getD_cons_zero]
    rw [pyIdx_zero_sub_one rows hr]
  · intro h
    simp only [neighborsPBC, neighborsPBCIdx, List.map_cons, List.getD_cons_succ,
      List.getD_cons_zero]
    rw [if_pos h]
  · intro h
    simp only [neighborsPBC, neighborsPBCIdx, List.map_cons, List.getD_cons_succ,
      List.getD_cons_zero]
    rw [if_pos h]
  · intro p hp
    simp only [neighborsPBCIdx, List.mem_cons, List.not_mem_nil, or_false] at hp
    rcases hp with h | h | h | h <;> subst h <;>
      refine ⟨?_, ?_⟩ <;>
      first
        | exact hi
        | exact hj
        | exact pyIdx_sub_one_lt _ _ hc hj
        | exact pyIdx_sub_one_lt _ _ hr hi
        | (split_ifs <;> omega)

/-- Witness for C6 on the 1×1 lattice `[[5]]`, where all four wrap cases
coincide at the single site. -/
theorem pbc_neighbors_wrap_witness :
    ((neighborsPBC [[(5 : ℚ)]] 1 1 0 0).getD 0 0 = getS [[(5 : ℚ)]] 0 (1 - 1)) ∧
    ((neighborsPBC [[(5 : ℚ)]] 1 1 0 0).getD 2 0 = getS [[(5 : ℚ)]] (1 - 1) 0) ∧
    ((neighborsPBC [[(5 : ℚ)]] 1 1 0 0).getD 1 0 = getS [[(5 : ℚ)]] 0 0) ∧
    ((neighborsPBC [[(5 : ℚ)]] 1 1 0 0).getD 3 0 = getS [[(5 : ℚ)]] 0 0) ∧
    (∀ p ∈ neighborsPBCIdx 1 1 0 0, p.1 < 1 ∧ p.2 < 1) := by
  have h := pbc_neighbors_wrap [[(5 : ℚ)]] 1 1 0 0 (by norm_num) (by norm_num)
    (by norm_num) (by norm_num)
  exact ⟨h.1 rfl, h.2.1 rfl, h.2.2.1 rfl, h.2.2.2.1 rfl, h.2.2.2.2⟩

/-- Claim C8: for every lattice whose cells all have value `+m` or `-m` for
one magnitude `m > 0`, `summary` returns positive and negative counts that
partition the cells and a total spin equal to
`(positive_count - negative_count) * m`; `summary` reads the lattice only
and mutates nothing. -/
theorem summary_counts_and_total (mc : MonteCarlo) (m : ℚ) (hm : 0 < m)
    (hcells : ∀ row ∈ mc.lattice, ∀ x ∈ row, x = m ∨ x = -m) :
    mc.summary.1 + mc.summary.2.1 = numCells mc.lattice ∧
    mc.summary.2.2 = ((mc.summary.1 : ℚ) - (mc.summary.2.1 : ℚ)) * m := by
  have h := lattice_counts m hm mc.lattice hcells
  exact ⟨h.1, h.2⟩

/-- Witness for C8 on a 2×2 lattice with three `+1` and one `-1` spin. -/
theorem summary_counts_and_total_witness :
    (MonteCarlo.init [[1, -1], [1, 1]] (.scalar 1) 0 1 1).summary.1 +
      (MonteCarlo.init [[1, -1], [1, 1]] (.scalar 1) 0 1 1).summary.2.1 =
        numCells (MonteCarlo.init [[1, -1], [1, 1]] (.scalar 1) 0 1 1).lattice ∧
    (MonteCarlo.init [[1, -1], [1, 1]] (.scalar 1) 0 1 1).summary.2.2 =
      (((MonteCarlo.init [[1, -1], [1, 1]] (.scalar 1) 0 1 1).summary.1 : ℚ) -
       ((MonteCarlo.init [[1, -1], [1, 1]] (.scalar 1) 0 1 1).summary.2.1 : ℚ)) * 1 :=
  summary_counts_and_total (MonteCarlo.init [[1, -1], [1, 1]] (.scalar 1) 0 1 1)
    1 (by norm_num)
    (by
      intro row hrow x hx
      fin_cases hrow <;> fin_cases hx <;> norm_num)

/-- Claim C9: every `sweep` call (any selector, hence both recognized
policies) only flips signs in place — the result lattice has the same
dimensions and, cell by cell, the same spin up to sign — and the lattice
dimensions (both the stored `dimen` and the actual grid shape) are unchanged
by `sweep` and by `magnetization_Ns`. -/
theorem sweep_preserves_shape_and_magnitude (e : ℚ → ℚ) (mc : MonteCarlo)
    (BC : String) (stream : ℕ → ℚ) (k : ℕ) :
    (ShapePM mc.lattice (MonteCarlo.sweep e mc BC stream k).1.lattice ∧
     (MonteCarlo.sweep e mc BC stream k).1.dimen = mc.dimen) ∧
    (∀ (T : ℚ) (n : ℤ),
      ShapePM mc.lattice
          (MonteCarlo.magnetization_Ns e mc T n BC stream k).1.lattice ∧
        (MonteCarlo.magnetization_Ns e mc T n BC stream k).1.dimen = mc.dimen) := by
  refine ⟨sweep_shapePM e mc BC stream k, ?_⟩
  intro T n
  by_cases hn : n < 1
  · unfold MonteCarlo.magnetization_Ns
    rw [if_pos hn]
    exact ⟨shapePM_rfl _, rfl⟩
  · unfold MonteCarlo.magnetization_Ns
    rw [if_neg hn]
    have h := magLoop_shapePM e BC stream n.toNat { mc with T := T } k 0
    rcases hml : magLoop e BC stream n.toNat { mc with T := T } k 0 with ⟨mc2, k2, r⟩
    rw [hml] at h
    have hp : ShapePM mc.lattice mc2.lattice := h.1
    have hd : mc2.dimen = mc.dimen := h.2
    cases r with
    | ok M => exact ⟨hp, hd⟩
    | error msg => exact ⟨hp, hd⟩

end IsingMC
